import Mathlib

/-!
Verification development for the xml-streamer repository: a shallow embedding
of the incremental tree-building engine (tree assembler, node representation,
navigation adapter) together with theorems checking the design document's
claims against the code.

Go byte slices are modelled as lists of characters; machine ints hold only
small non-negative index values here, so Nat (and Int where Go may go
negative) is used. The index-driven scanning loops of the source are
embedded with an explicit iteration budget that is always at least the
number of loop iterations the Go code can perform (each iteration strictly
advances the scan index, which is bounded by the input length), so the
embedded functions compute exactly what the Go loops compute.
-/

namespace XmlStreamer

/-- Character list of a string literal (Go byte slices and strings are
modelled as lists of characters). -/
def chars (s : String) : List Char := s.toList

abbrev Bytes := List Char

/-- XMLAttribute from element.go: a name/value pair. -/
structure XMLAttribute where
  name : Bytes
  value : Bytes
deriving DecidableEq, Repr

/-- Node-kind tag of a content node (xpath.TextNode / xpath.CommentNode). -/
inductive ContentType
  | textNode
  | commentNode
deriving DecidableEq, Repr

/-- Namespace scope: prefix to URI mapping.  Go map semantics are modelled
by an association list where insertion prepends, so the first match during
lookup is the most recent insertion (later Go inserts win). -/
abbrev NSMap := List (Bytes × Bytes)

/-- First-match association lookup, with the Go zero value for a missing
key (a map read of an absent key yields the empty string). -/
def nsFindD : NSMap → Bytes → Bytes
  | [], _ => []
  | (k, v) :: rest, key => if k = key then v else nsFindD rest key

/-- Whitespace accepted by the attribute scanners at the start of an
attribute (space, tab, newline, carriage return). -/
def isSpaceNLChar (c : Char) : Bool :=
  c = ' ' || c = '\t' || c = '\n' || c = '\r'

/-- Whitespace skipped between the equals sign and the value (space, tab). -/
def isSpaceTabChar (c : Char) : Bool :=
  c = ' ' || c = '\t'

/-- Whitespace trimmed by bytes.TrimSpace (ASCII whitespace plus NEL and
no-break space, per unicode.IsSpace on the Latin-1 range). -/
def isGoSpace (c : Char) : Bool :=
  c = ' ' || c = '\t' || c = '\n' || c = '\u000B' || c = '\u000C' || c = '\r' ||
  c = '\u0085' || c = '\u00A0'

/-- Advance index i while the character satisfies p, stopping at the end of
the input; budget-indexed embedding of the Go scan loops of the form
"for i < len(attrs) && p(attrs[i]): i++". -/
def skipWhileAux (p : Char → Bool) (attrs : Bytes) : Nat → Nat → Nat
  | i, 0 => i
  | i, fuel + 1 =>
    if h : i < attrs.length then
      if p (attrs.get ⟨i, h⟩) then skipWhileAux p attrs (i + 1) fuel else i
    else i

/-- The budget attrs.length - i suffices because each step increments i. -/
def skipWhile (p : Char → Bool) (attrs : Bytes) (i : Nat) : Nat :=
  skipWhileAux p attrs i (attrs.length - i + 1)

/-- Go slice expression attrs[a:b] (elements with indices a <= j < b). -/
def slice (l : Bytes) (a b : Nat) : Bytes := (l.take b).drop a

/-- bytes.TrimSpace: drop Go whitespace from both ends. -/
def trimSpace (l : Bytes) : Bytes :=
  ((l.dropWhile isGoSpace).reverse.dropWhile isGoSpace).reverse

/-- strings.HasPrefix s pre / bytes prefix test. -/
def hasPrefixB : Bytes → Bytes → Bool
  | _, [] => true
  | [], _ :: _ => false
  | a :: s, b :: p => a = b && hasPrefixB s p

/-- bytes.Contains: does hay contain needle as a contiguous substring. -/
def containsBytes : Bytes → Bytes → Bool
  | hay, needle =>
    if hasPrefixB hay needle then true
    else
      match hay with
      | [] => false
      | _ :: t => containsBytes t needle

/-! ## Attribute scanning (parseAttributes in the parser source file)

The Go loop repeatedly: skips whitespace, scans the attribute name up to
the equals sign, trims it, skips spaces and tabs, requires an opening
quote character, scans the quoted value, and appends the attribute; any
check failing ends the scan with the attributes found so far.  Each
iteration strictly advances the scan index past the equals sign, so the
loop runs at most attrs.length times; the budget argument below counts
remaining iterations. -/

/-- One-per-iteration embedding of the parseAttributes scanning loop. -/
def parseAttributesLoop (attrs : Bytes) : Nat → Nat → List XMLAttribute → List XMLAttribute
  | _, 0, acc => acc
  | i, fuel + 1, acc =>
    let i1 := skipWhile isSpaceNLChar attrs i
    if _h1 : i1 < attrs.length then
      let i2 := skipWhile (fun c => !(c = '=')) attrs i1
      if _h2 : i2 < attrs.length then
        let name := trimSpace (slice attrs i1 i2)
        let i3 := skipWhile isSpaceTabChar attrs (i2 + 1)
        if h3 : i3 < attrs.length then
          let quote := attrs.get ⟨i3, h3⟩
          if quote = '"' ∨ quote = '\'' then
            let i4 := skipWhile (fun c => !(c = quote)) attrs (i3 + 1)
            let value := slice attrs (i3 + 1) i4
            parseAttributesLoop attrs (i4 + 1) fuel (acc ++ [⟨name, value⟩])
          else acc
        else acc
      else acc
    else acc

/-- parseAttributes from the parser source: first counts equals signs and
returns nothing when none occur, otherwise runs the scanning loop. -/
def parseAttributes (attrs : Bytes) : List XMLAttribute :=
  if attrs.count '=' = 0 then [] else parseAttributesLoop attrs 0 (attrs.length + 1) []

/-! ## Namespace extraction (Parser.extractNamespaces) -/

/-- Insert a declaration into the (possibly still absent) namespace map;
prepending models a Go map store with first-match lookup. -/
def nsInsert (acc : Option NSMap) (k v : Bytes) : Option NSMap :=
  match acc with
  | none => some [(k, v)]
  | some m => some ((k, v) :: m)

/-- One-per-iteration embedding of the extractNamespaces scanning loop.
The loop mirrors parseAttributesLoop but bails out quickly on attribute
names that cannot be namespace declarations (shorter than five characters
or not starting with x or X), and records only xmlns and xmlns:P names. -/
def extractNamespacesLoop (attrs : Bytes) : Nat → Nat → Option NSMap → Option NSMap
  | _, 0, acc => acc
  | i, fuel + 1, acc =>
    let i1 := skipWhile isSpaceNLChar attrs i
    if _h1 : i1 < attrs.length then
      let i2 := skipWhile (fun c => !(c = '=')) attrs i1
      if _h2 : i2 < attrs.length then
        let nameBytes := trimSpace (slice attrs i1 i2)
        if nameBytes.length < 5 ∨ ¬(nameBytes.headD ' ' = 'x' ∨ nameBytes.headD ' ' = 'X') then
          -- quick bailout: skip the equals sign and the value without recording
          let i3 := skipWhile isSpaceTabChar attrs (i2 + 1)
          if h3 : i3 < attrs.length then
            let q := attrs.get ⟨i3, h3⟩
            if q = '"' ∨ q = '\'' then
              let i4 := skipWhile (fun c => !(c = q)) attrs (i3 + 1)
              extractNamespacesLoop attrs (i4 + 1) fuel acc
            else extractNamespacesLoop attrs i3 fuel acc
          else extractNamespacesLoop attrs i3 fuel acc
        else
          let name := nameBytes
          let i3 := skipWhile isSpaceTabChar attrs (i2 + 1)
          if h3 : i3 < attrs.length then
            let quote := attrs.get ⟨i3, h3⟩
            if quote = '"' ∨ quote = '\'' then
              let i4 := skipWhile (fun c => !(c = quote)) attrs (i3 + 1)
              let value := slice attrs (i3 + 1) i4
              let acc' :=
                if name = chars "xmlns" then nsInsert acc [] value
                else if hasPrefixB name (chars "xmlns:") then nsInsert acc (name.drop 6) value
                else acc
              extractNamespacesLoop attrs (i4 + 1) fuel acc'
            else acc
          else acc
      else acc
    else acc

/-- Parser.extractNamespaces: nil on empty input, otherwise the scan;
none models the nil map returned when no declaration was found. -/
def extractNamespaces (attrs : Bytes) : Option NSMap :=
  if attrs.length = 0 then none else extractNamespacesLoop attrs 0 (attrs.length + 1) none

/-! ## Node representation and heap

The Go nodes form a mutable pointer graph (XMLElement / XMLContentNode
with parent back-references).  The embedding uses an explicit heap: a list
of nodes addressed by allocation index, with parent and child links stored
as indices.  Pool recycling only reuses storage for observably fresh
nodes, so allocation is modelled as appending a node to the heap. -/

/-- Payload of a node: either an XMLElement (identity, namespace scope,
attributes, ordered child indices, raw content buffer) or an
XMLContentNode (offset range into the parent's raw content buffer plus a
node-kind tag). -/
inductive NodeData
  | element (name localName pfx nsURI : Bytes) (namespaces : Option NSMap)
      (attributes : List XMLAttribute) (children : List Nat) (rawContent : Bytes)
  | content (start stop : Nat) (ctype : ContentType)
deriving DecidableEq, Repr

/-- A heap node: the fields shared by both node kinds (parent
back-reference and index within the parent's children) plus the payload. -/
structure Node where
  parent : Option Nat
  siblingIndex : Nat
  data : NodeData
deriving DecidableEq, Repr

abbrev Heap := List Node

/-- Heap lookup by node index. -/
def getNode (h : Heap) (id : Nat) : Option Node := h[id]?

/-- Children list of the payload (empty for content nodes). -/
def NodeData.childIds : NodeData → List Nat
  | .element _ _ _ _ _ _ children _ => children
  | .content _ _ _ => []

/-- Raw content buffer of the payload (empty for content nodes). -/
def NodeData.raw : NodeData → Bytes
  | .element _ _ _ _ _ _ _ rawContent => rawContent
  | .content _ _ _ => []

/-- Qualified name of the payload (empty for content nodes). -/
def NodeData.qname : NodeData → Bytes
  | .element name _ _ _ _ _ _ _ => name
  | .content _ _ _ => []

/-- Whether the payload is an element. -/
def NodeData.isElem : NodeData → Bool
  | .element _ _ _ _ _ _ _ _ => true
  | .content _ _ _ => false

/-- Namespace scope of the payload. -/
def NodeData.nsScope : NodeData → Option NSMap
  | .element _ _ _ _ namespaces _ _ _ => namespaces
  | .content _ _ _ => none

/-- Attribute list of the payload. -/
def NodeData.attrList : NodeData → List XMLAttribute
  | .element _ _ _ _ _ attributes _ _ => attributes
  | .content _ _ _ => []

def elemName (h : Heap) (id : Nat) : Bytes :=
  match getNode h id with
  | some n => n.data.qname
  | none => []

def childrenOfId (h : Heap) (id : Nat) : List Nat :=
  match getNode h id with
  | some n => n.data.childIds
  | none => []

def rawContentOf (h : Heap) (id : Nat) : Bytes :=
  match getNode h id with
  | some n => n.data.raw
  | none => []

def attributesOfId (h : Heap) (id : Nat) : List XMLAttribute :=
  match getNode h id with
  | some n => n.data.attrList
  | none => []

def isElementId (h : Heap) (id : Nat) : Bool :=
  match getNode h id with
  | some n => n.data.isElem
  | none => false

def siblingIndexOf (h : Heap) (id : Nat) : Nat :=
  match getNode h id with
  | some n => n.siblingIndex
  | none => 0

def parentOfNode (h : Heap) (id : Nat) : Option Nat :=
  match getNode h id with
  | some n => n.parent
  | none => none

/-- In-place update of a heap node (no-op on a dangling index). -/
def modifyNode (h : Heap) (id : Nat) (f : Node → Node) : Heap :=
  match h[id]? with
  | some n => h.set id (f n)
  | none => h


/-! ## Lexical events and the tree assembler (Parser.parse and handlers)

Events follow the external tokenizer contract: start-tag carries the name
bytes, the raw attribute bytes and the full tag bytes; CDATA and comment
events carry their delimiters.  End of input, a read error or
cancellation all just end the event sequence. -/

inductive XMLEvent
  | startTag (name attrs fullTag : Bytes)
  | endTag
  | textEv (bytes : Bytes)
  | cdataEv (bytes : Bytes)
  | commentEv (bytes : Bytes)
deriving DecidableEq, Repr

/-- Assembler state: the heap, the stack of open elements (top first),
the indices emitted on the channel in order, and a trace of every
(index, qualified name) pair handed to close-handling, in closing
order (the trace records the calls to checkAndStreamElement). -/
structure ParseState where
  heap : Heap
  stack : List Nat
  output : List Nat
  closedPairs : List (Nat × Bytes)
deriving DecidableEq, Repr

def initState : ParseState := { heap := [], stack := [], output := [], closedPairs := [] }

/-- Parser.checkAndStreamElement: when the stream-target set is non-empty
and contains the element's qualified name, detach the element from its
parent and send it on the channel; sending is modelled by appending the
index to the output list.  The close trace is extended in either case. -/
def checkAndStreamElement (streamNames : List Bytes) (st : ParseState) (id : Nat) : ParseState :=
  let name := elemName st.heap id
  let shouldStream := streamNames.length > 0 && streamNames.contains name
  let st := { st with closedPairs := st.closedPairs ++ [(id, name)] }
  if shouldStream then
    { st with heap := modifyNode st.heap id (fun n => { n with parent := none }),
              output := st.output ++ [id] }
  else st

/-- strings.IndexByte on the qualified name: split into prefix and local
name at the first colon, if any. -/
def splitName (nameStr : Bytes) : Bytes × Bytes :=
  match nameStr.findIdx? (fun c => c = ':') with
  | some idx => (nameStr.take idx, nameStr.drop (idx + 1))
  | none => ([], nameStr)

/-- Self-closing test: the full tag ends in the two characters slash,
greater-than. -/
def isSelfClosing (fullTag : Bytes) : Bool :=
  decide (fullTag.length ≥ 2) &&
    (fullTag.getD (fullTag.length - 2) ' ' = '/') &&
    (fullTag.getD (fullTag.length - 1) ' ' = '>')

/-- Parser.handleStartElement: split the name, merge the namespace scope
with the parent's (copy-on-declare: reuse the parent scope object when
this element declares nothing), resolve the element's namespace URI,
parse attributes, allocate the element, link it as the last child of the
stack top, then either close it immediately (self-closing) or push it. -/
def handleStartElement (streamNames : List Bytes) (st : ParseState)
    (name attrs fullTag : Bytes) (elementNamespaces : Option NSMap) : ParseState :=
  let (pfx, localName) := splitName name
  let parentNS : Option NSMap :=
    match st.stack with
    | topId :: _ =>
      (match getNode st.heap topId with
       | some n => n.data.nsScope
       | none => none)
    | [] => none
  let nsContext : Option NSMap :=
    if (elementNamespaces.getD []).length > 0 then
      some (elementNamespaces.getD [] ++ parentNS.getD [])
    else parentNS
  let namespaceURI : Bytes :=
    match nsContext with
    | some ctx => nsFindD ctx pfx
    | none => []
  let attributes := if attrs.length > 0 then parseAttributes attrs else []
  let newId := st.heap.length
  match st.stack with
  | topId :: _ =>
    let sibIdx := (childrenOfId st.heap topId).length
    let elemNode : Node :=
      { parent := some topId, siblingIndex := sibIdx,
        data := .element name localName pfx namespaceURI nsContext attributes [] [] }
    let heap2 := modifyNode (st.heap ++ [elemNode]) topId
      (fun n =>
        match n.data with
        | .element nm ln px uri nss ats cs raw =>
          { n with data := .element nm ln px uri nss ats (cs ++ [newId]) raw }
        | d => { n with data := d })
    let st1 := { st with heap := heap2 }
    if isSelfClosing fullTag then checkAndStreamElement streamNames st1 newId
    else { st1 with stack := newId :: st1.stack }
  | [] =>
    let elemNode : Node :=
      { parent := none, siblingIndex := 0,
        data := .element name localName pfx namespaceURI nsContext attributes [] [] }
    let st1 := { st with heap := st.heap ++ [elemNode] }
    if isSelfClosing fullTag then checkAndStreamElement streamNames st1 newId
    else { st1 with stack := [newId] }

/-- Append a content node to the stack-top element: record the offset
range of the appended bytes in the parent's raw content buffer, tag the
node, and link it as the last child. -/
def appendContentNode (st : ParseState) (topId : Nat) (bytes : Bytes)
    (ct : ContentType) : ParseState :=
  match getNode st.heap topId with
  | some n =>
    (match n.data with
     | .element _ _ _ _ _ _ children raw =>
       let newId := st.heap.length
       let cnode : Node :=
         { parent := some topId, siblingIndex := children.length,
           data := .content raw.length (raw.length + bytes.length) ct }
       let addContent : Node → Node := fun m =>
         match m.data with
         | .element nm ln px uri nss ats cs rc =>
           { m with data := .element nm ln px uri nss ats (cs ++ [newId]) (rc ++ bytes) }
         | d => { m with data := d }
       { st with heap := modifyNode (st.heap ++ [cnode]) topId addContent }
     | .content _ _ _ => st)
  | none => st

/-- One lexical event of Parser.parse. -/
def stepEvent (streamNames : List Bytes) (st : ParseState) (ev : XMLEvent) : ParseState :=
  match ev with
  | .startTag name attrs fullTag =>
    -- only extract namespaces when the raw attribute bytes contain xmlns
    let elementNamespaces : Option NSMap :=
      if attrs.length > 0 && containsBytes attrs (chars "xmlns") then extractNamespaces attrs
      else none
    handleStartElement streamNames st name attrs fullTag elementNamespaces
  | .endTag =>
    -- Parser.handleEndElement: an end tag with an empty stack is ignored
    match st.stack with
    | [] => st
    | topId :: rest => checkAndStreamElement streamNames { st with stack := rest } topId
  | .textEv bytes =>
    match st.stack with
    | topId :: _ =>
      if bytes.length > 0 then appendContentNode st topId bytes .textNode else st
    | [] => st
  | .cdataEv bytes =>
    match st.stack with
    | topId :: _ =>
      if bytes.length > 12 then
        -- strip the nine-character opening and three-character closing delimiters
        let content := (bytes.drop 9).take (bytes.length - 12)
        if content.length > 0 then appendContentNode st topId content .textNode else st
      else st
    | [] => st
  | .commentEv bytes =>
    match st.stack with
    | topId :: _ =>
      if bytes.length > 7 then
        -- strip the four-character opening and three-character closing delimiters
        let content := (bytes.drop 4).take (bytes.length - 7)
        appendContentNode st topId content .commentNode
      else st
    | [] => st

/-- Parser.parse over a whole event sequence (end of input, read errors
and cancellation all simply terminate the sequence). -/
def parseEvents (streamNames : List Bytes) (events : List XMLEvent) : ParseState :=
  events.foldl (stepEvent streamNames) initState

/-! ## Text extraction (XMLElement.InnerText, XMLContentNode.InnerText,
XMLElement.collectText from element.go) -/

/-- XMLContentNode.InnerText: empty when detached or the range is empty,
otherwise the referenced range of the parent's raw content buffer. -/
def contentInnerText (h : Heap) (id : Nat) : Bytes :=
  match getNode h id with
  | some n =>
    (match n.data with
     | .content s e _ =>
       (match n.parent with
        | some p => if s ≥ e then [] else slice (rawContentOf h p) s e
        | none => [])
     | .element _ _ _ _ _ _ _ _ => [])
  | none => []

/-- XMLElement.collectText: walk the children in order, appending the
referenced range of every text (never comment) content node whose parent
is set and whose range is non-empty, and recursing into element
children.  The budget bounds the recursion depth; every child allocated
by the assembler has a larger heap index than its parent, so a budget of
the heap size always suffices. -/
def collectText (h : Heap) : Nat → Nat → Bytes
  | 0, _ => []
  | fuel + 1, id =>
    (childrenOfId h id).foldl
      (fun sb cid =>
        match getNode h cid with
        | some cn =>
          (match cn.data with
           | .content s e ct =>
             if ct = .textNode then
               (match cn.parent with
                | some p => if s < e then sb ++ slice (rawContentOf h p) s e else sb
                | none => sb)
             else sb
           | .element _ _ _ _ _ _ _ _ => sb ++ collectText h fuel cid)
        | none => sb) []

/-- XMLElement.InnerText: empty for no children; when no child is an
element, the fast path returns the whole raw content buffer; otherwise
the slow path concatenates descendant text recursively. -/
def elementInnerText (h : Heap) (id : Nat) : Bytes :=
  match getNode h id with
  | some n =>
    (match n.data with
     | .element _ _ _ _ _ _ children raw =>
       if children.length = 0 then []
       else if children.any (fun cid => isElementId h cid) then collectText h h.length id
       else raw
     | .content _ _ _ => [])
  | none => []

/-! ## Navigation adapter (elementNavigator from navigator.go)

The cursor: subtree root, current node, cached nearest enclosing element
(none when positioned on a content node), and the attribute index, which
is minus one when not positioned on an attribute. -/

structure elementNavigator where
  root : Nat
  currNode : Nat
  currElement : Option Nat
  attributeIndex : Int
deriving DecidableEq, Repr

/-- Reposition the cursor on a child or sibling node: the cached element
is the node itself when it is an element, nil otherwise; the attribute
index is not touched (all callers have already checked it is minus one). -/
def setCurrent (h : Heap) (nav : elementNavigator) (id : Nat) : elementNavigator :=
  { nav with currNode := id,
             currElement := if isElementId h id then some id else none }

/-- elementNavigator.MoveToParent: leaving attribute mode counts as moving
to the parent; otherwise follow the parent back-reference if present. -/
def MoveToParent (h : Heap) (nav : elementNavigator) : Bool × elementNavigator :=
  if nav.attributeIndex ≠ -1 then
    (true, { nav with attributeIndex := -1 })
  else
    match parentOfNode h nav.currNode with
    | some p => (true, { nav with currNode := p, currElement := some p, attributeIndex := -1 })
    | none => (false, nav)

/-- elementNavigator.MoveToNextAttribute. -/
def MoveToNextAttribute (h : Heap) (nav : elementNavigator) : Bool × elementNavigator :=
  match nav.currElement with
  | none => (false, nav)
  | some ce =>
    if nav.attributeIndex ≥ (attributesOfId h ce).length - 1 then (false, nav)
    else (true, { nav with attributeIndex := nav.attributeIndex + 1 })

/-- elementNavigator.MoveToChild: to the first child of the current
element, refused in attribute mode. -/
def MoveToChild (h : Heap) (nav : elementNavigator) : Bool × elementNavigator :=
  if nav.attributeIndex ≠ -1 then (false, nav)
  else
    match nav.currElement with
    | none => (false, nav)
    | some ce =>
      match (childrenOfId h ce)[0]? with
      | some child => (true, setCurrent h nav child)
      | none => (false, nav)

/-- elementNavigator.MoveToFirst: to the first sibling, failing when in
attribute mode, detached, or already at sibling index zero. -/
def MoveToFirst (h : Heap) (nav : elementNavigator) : Bool × elementNavigator :=
  if nav.attributeIndex ≠ -1 then (false, nav)
  else
    match parentOfNode h nav.currNode with
    | none => (false, nav)
    | some parent =>
      if siblingIndexOf h nav.currNode = 0 then (false, nav)
      else
        match (childrenOfId h parent)[0]? with
        | some first => (true, setCurrent h nav first)
        | none => (false, nav)

/-- elementNavigator.MoveToNext: to the sibling at the next index. -/
def MoveToNext (h : Heap) (nav : elementNavigator) : Bool × elementNavigator :=
  if nav.attributeIndex ≠ -1 then (false, nav)
  else
    match parentOfNode h nav.currNode with
    | none => (false, nav)
    | some parent =>
      let idx := siblingIndexOf h nav.currNode
      if (childrenOfId h parent).length ≤ idx + 1 then (false, nav)
      else
        match (childrenOfId h parent)[idx + 1]? with
        | some next => (true, setCurrent h nav next)
        | none => (false, nav)

/-- elementNavigator.MoveToPrevious: to the sibling at the previous
index.  The source indexes the child list without a bound check after
the index-zero test; under the sibling-index invariant the lookup always
succeeds, and the unreachable missing-entry branch reports failure. -/
def MoveToPrevious (h : Heap) (nav : elementNavigator) : Bool × elementNavigator :=
  if nav.attributeIndex ≠ -1 then (false, nav)
  else
    match parentOfNode h nav.currNode with
    | none => (false, nav)
    | some parent =>
      let idx := siblingIndexOf h nav.currNode
      if idx = 0 then (false, nav)
      else
        match (childrenOfId h parent)[idx - 1]? with
        | some prev => (true, setCurrent h nav prev)
        | none => (false, nav)

/-- The movement operations of the navigation contract that can fail. -/
inductive Move
  | toParent
  | toNextAttribute
  | toChild
  | toFirst
  | toNext
  | toPrevious
deriving DecidableEq, Repr

def applyMove (h : Heap) (m : Move) (nav : elementNavigator) : Bool × elementNavigator :=
  match m with
  | .toParent => MoveToParent h nav
  | .toNextAttribute => MoveToNextAttribute h nav
  | .toChild => MoveToChild h nav
  | .toFirst => MoveToFirst h nav
  | .toNext => MoveToNext h nav
  | .toPrevious => MoveToPrevious h nav

/-! ## Streaming interface (Parser and Parser.Stream)

The context and reader collaborate only through the event sequence, which
parseEvents takes directly; the Parser object itself carries the stream
target names, the resolved buffer size, the one-shot latch of sync.Once
and the created channel.  A world wraps the parser together with a supply
of fresh channel handles and the list of background parse tasks started,
so that idempotence of Stream is observable. -/

structure Parser where
  streamNames : List Bytes
  bufferSize : Int
  onceDone : Bool
  ch : Option Nat
deriving DecidableEq, Repr

/-- NewParser: a non-positive buffer size falls back to the default of
eight; no channel exists and no parse has started yet. -/
def NewParser (streamNames : List Bytes) (bufferSize : Int) : Parser :=
  { streamNames := streamNames,
    bufferSize := if bufferSize ≤ 0 then 8 else bufferSize,
    onceDone := false,
    ch := none }

structure StreamWorld where
  parser : Parser
  nextChan : Nat
  startedParses : List Nat
deriving DecidableEq, Repr

def mkStreamWorld (streamNames : List Bytes) (bufferSize : Int) : StreamWorld :=
  { parser := NewParser streamNames bufferSize, nextChan := 0, startedParses := [] }

/-- Parser.Stream: the sync.Once body creates the channel and starts the
single background parse task on the first call only; every call returns
the channel stored in the parser. -/
def Stream (w : StreamWorld) : StreamWorld × Nat :=
  if w.parser.onceDone then
    (w, w.parser.ch.getD 0)
  else
    let c := w.nextChan
    ({ parser := { w.parser with onceDone := true, ch := some c },
       nextChan := w.nextChan + 1,
       startedParses := w.startedParses ++ [c] }, c)

/-- Repeated calls to Stream, returning the handles observed in order. -/
def streamCalls (w : StreamWorld) : Nat → StreamWorld × List Nat
  | 0 => (w, [])
  | n + 1 =>
    let r := Stream w
    let rest := streamCalls r.1 n
    (rest.1, r.2 :: rest.2)

/-! ## Bounds-checked variants of the byte scanners

To state that attribute and namespace scanning never performs an
out-of-bounds access, the two scanners are replayed with every index and
slice access routed through checked accessors that return an error value
on any out-of-range use, exactly where the Go code indexes or slices the
byte array.  The safety theorem shows the checked run always returns ok
with the same result as the plain embedding. -/

/-- Checked byte access attrs[i]. -/
def getE (l : Bytes) (i : Nat) : Except Unit Char :=
  match l[i]? with
  | some c => .ok c
  | none => .error ()

/-- Checked Go slice l[a:b] (requires a less-or-equal b less-or-equal length). -/
def sliceE (l : Bytes) (a b : Nat) : Except Unit Bytes :=
  if a ≤ b ∧ b ≤ l.length then .ok (slice l a b) else .error ()

/-- Checked replay of the parseAttributes scanning loop. -/
def parseAttributesLoopE (attrs : Bytes) :
    Nat → Nat → List XMLAttribute → Except Unit (List XMLAttribute)
  | _, 0, acc => .ok acc
  | i, fuel + 1, acc =>
    let i1 := skipWhile isSpaceNLChar attrs i
    if i1 < attrs.length then
      let i2 := skipWhile (fun c => !(c = '=')) attrs i1
      if i2 < attrs.length then
        match sliceE attrs i1 i2 with
        | .error e => .error e
        | .ok rawName =>
          let name := trimSpace rawName
          let i3 := skipWhile isSpaceTabChar attrs (i2 + 1)
          if i3 < attrs.length then
            match getE attrs i3 with
            | .error e => .error e
            | .ok quote =>
              if quote = '"' ∨ quote = '\'' then
                let i4 := skipWhile (fun c => !(c = quote)) attrs (i3 + 1)
                match sliceE attrs (i3 + 1) i4 with
                | .error e => .error e
                | .ok value => parseAttributesLoopE attrs (i4 + 1) fuel (acc ++ [⟨name, value⟩])
              else .ok acc
          else .ok acc
      else .ok acc
    else .ok acc

def parseAttributesE (attrs : Bytes) : Except Unit (List XMLAttribute) :=
  if attrs.count '=' = 0 then .ok [] else parseAttributesLoopE attrs 0 (attrs.length + 1) []

/-- Checked replay of the extractNamespaces scanning loop. -/
def extractNamespacesLoopE (attrs : Bytes) :
    Nat → Nat → Option NSMap → Except Unit (Option NSMap)
  | _, 0, acc => .ok acc
  | i, fuel + 1, acc =>
    let i1 := skipWhile isSpaceNLChar attrs i
    if i1 < attrs.length then
      let i2 := skipWhile (fun c => !(c = '=')) attrs i1
      if i2 < attrs.length then
        match sliceE attrs i1 i2 with
        | .error e => .error e
        | .ok rawName =>
          let nameBytes := trimSpace rawName
          if nameBytes.length < 5 ∨ ¬(nameBytes.headD ' ' = 'x' ∨ nameBytes.headD ' ' = 'X') then
            let i3 := skipWhile isSpaceTabChar attrs (i2 + 1)
            if i3 < attrs.length then
              match getE attrs i3 with
              | .error e => .error e
              | .ok q =>
                if q = '"' ∨ q = '\'' then
                  let i4 := skipWhile (fun c => !(c = q)) attrs (i3 + 1)
                  extractNamespacesLoopE attrs (i4 + 1) fuel acc
                else extractNamespacesLoopE attrs i3 fuel acc
            else extractNamespacesLoopE attrs i3 fuel acc
          else
            let name := nameBytes
            let i3 := skipWhile isSpaceTabChar attrs (i2 + 1)
            if i3 < attrs.length then
              match getE attrs i3 with
              | .error e => .error e
              | .ok quote =>
                if quote = '"' ∨ quote = '\'' then
                  let i4 := skipWhile (fun c => !(c = quote)) attrs (i3 + 1)
                  match sliceE attrs (i3 + 1) i4 with
                  | .error e => .error e
                  | .ok value =>
                    let acc' :=
                      if name = chars "xmlns" then nsInsert acc [] value
                      else if hasPrefixB name (chars "xmlns:") then nsInsert acc (name.drop 6) value
                      else acc
                    extractNamespacesLoopE attrs (i4 + 1) fuel acc'
                else .ok acc
            else .ok acc
      else .ok acc
    else .ok acc

def extractNamespacesE (attrs : Bytes) : Except Unit (Option NSMap) :=
  if attrs.length = 0 then .ok none else extractNamespacesLoopE attrs 0 (attrs.length + 1) none

/-! ## Concrete documents used by the design document's examples -/

/-- Event sequence of the document with one item element containing one
comment node with content c followed by one text node with content text. -/
def c1Events : List XMLEvent :=
  [ .startTag (chars "item") [] (chars "<item>"),
    .commentEv (chars "<!--c-->"),
    .textEv (chars "text"),
    .endTag ]

/-- Event sequence of the document root containing item 1, other x,
item 2. -/
def c2Events : List XMLEvent :=
  [ .startTag (chars "root") [] (chars "<root>"),
    .startTag (chars "item") [] (chars "<item>"),
    .textEv (chars "1"),
    .endTag,
    .startTag (chars "other") [] (chars "<other>"),
    .textEv (chars "x"),
    .endTag,
    .startTag (chars "item") [] (chars "<item>"),
    .textEv (chars "2"),
    .endTag,
    .endTag ]

/-- A small assembled tree used as a concrete navigation example: one
element with two text-run children. -/
def c9heap : Heap :=
  [ { parent := none, siblingIndex := 0,
      data := .element (chars "item") (chars "item") [] [] none [] [1, 2] (chars "ab") },
    { parent := some 0, siblingIndex := 0, data := .content 0 1 .textNode },
    { parent := some 0, siblingIndex := 1, data := .content 1 2 .textNode } ]

/-- A cursor positioned on the second text run of the example tree. -/
def c9nav : elementNavigator := { root := 0, currNode := 2, currElement := none, attributeIndex := -1 }

/-- The node the example cursor is positioned on. -/
def c9node : Node := { parent := some 0, siblingIndex := 1, data := .content 1 2 .textNode }

/-! ## Structural invariants of the assembled tree -/

/-- Well-formedness of an assembler state: stack entries are live
elements; emitted nodes are detached; the child list of every node points
at live nodes whose sibling index is their position (the sibling-index
invariant); and every node with a parent back-reference is listed in that
parent's child list at its sibling index. -/
structure WFState (st : ParseState) : Prop where
  stackValid : ∀ id ∈ st.stack, ∃ n, getNode st.heap id = some n ∧ n.data.isElem = true
  outputDetached : ∀ id ∈ st.output, ∃ n, getNode st.heap id = some n ∧ n.parent = none
  childIdx : ∀ pid pn, getNode st.heap pid = some pn →
    ∀ i cid, pn.data.childIds[i]? = some cid →
      ∃ cn, getNode st.heap cid = some cn ∧ cn.siblingIndex = i
  parentListed : ∀ id n pid, getNode st.heap id = some n → n.parent = some pid →
    ∃ pn, getNode st.heap pid = some pn ∧ pn.data.childIds[n.siblingIndex]? = some id

/-- The emission trace invariant: the output is exactly the closing trace
restricted to stream-target names, in order. -/
def traceInv (sn : List Bytes) (st : ParseState) : Prop :=
  st.output = (st.closedPairs.filter
    (fun p => sn.length > 0 && sn.contains p.2)).map Prod.fst

/-! # Theorems -/

/-! ## Heap lookup facts -/

theorem getNode_lt_length {h : Heap} {id : Nat} {n : Node}
    (hget : getNode h id = some n) : id < h.length := by
  by_contra hge
  rw [getNode, List.getElem?_eq_none (by omega)] at hget
  exact Option.noConfusion hget

theorem getNode_append (h : Heap) (x : Node) (j : Nat) :
    getNode (h ++ [x]) j = if j = h.length then some x else getNode h j := by
  rcases Nat.lt_trichotomy j h.length with hlt | heq | hgt
  · rw [getNode, List.getElem?_append_left hlt, if_neg (by omega)]; rfl
  · subst heq
    simp [getNode]
  · rw [if_neg (by omega), getNode, getNode,
      List.getElem?_eq_none (by simp; omega), List.getElem?_eq_none (by omega)]

theorem getNode_modifyNode (h : Heap) (id : Nat) (f : Node → Node) (j : Nat) :
    getNode (modifyNode h id f) j = if j = id then (getNode h id).map f else getNode h j := by
  unfold modifyNode
  cases hid : h[id]? with
  | none =>
    by_cases hji : j = id
    · subst hji; rw [if_pos rfl, getNode, hid]; rfl
    · rw [if_neg hji]
  | some n =>
    by_cases hji : j = id
    · subst hji
      rw [if_pos rfl, getNode, List.getElem?_set_self (by
          exact getNode_lt_length (show getNode h j = some n from hid)), getNode, hid]
      rfl
    · rw [if_neg hji, getNode, List.getElem?_set_ne (by omega), getNode]

theorem modifyNode_length (h : Heap) (id : Nat) (f : Node → Node) :
    (modifyNode h id f).length = h.length := by
  unfold modifyNode
  cases h[id]? <;> simp

/-! ## The emission trace: effect of each assembler operation -/

theorem checkAndStream_trace (sn : List Bytes) (st : ParseState) (id : Nat) :
    (checkAndStreamElement sn st id).output
        = st.output ++ (if sn.length > 0 && sn.contains (elemName st.heap id) then [id] else []) ∧
    (checkAndStreamElement sn st id).closedPairs
        = st.closedPairs ++ [(id, elemName st.heap id)] ∧
    (checkAndStreamElement sn st id).stack = st.stack := by
  unfold checkAndStreamElement
  by_cases h1 : 0 < sn.length <;> by_cases h2 : elemName st.heap id ∈ sn <;>
    simp [h1, h2]

theorem appendContent_trace (st : ParseState) (topId : Nat) (bytes : Bytes) (ct : ContentType) :
    (appendContentNode st topId bytes ct).output = st.output ∧
    (appendContentNode st topId bytes ct).closedPairs = st.closedPairs ∧
    (appendContentNode st topId bytes ct).stack = st.stack := by
  unfold appendContentNode
  split
  · split <;> simp
  · simp

theorem traceInv_checkAndStream (sn : List Bytes) (st : ParseState) (id : Nat)
    (h : traceInv sn st) : traceInv sn (checkAndStreamElement sn st id) := by
  obtain ⟨ho, hc, -⟩ := checkAndStream_trace sn st id
  unfold traceInv at *
  rw [ho, hc, h, List.filter_append, List.map_append]
  congr 1
  by_cases h1 : 0 < sn.length <;> by_cases h2 : elemName st.heap id ∈ sn <;>
    simp [List.filter_cons, h1, h2]

theorem traceInv_step (sn : List Bytes) (st : ParseState) (ev : XMLEvent)
    (hInv : traceInv sn st) : traceInv sn (stepEvent sn st ev) := by
  have hApp : ∀ st' : ParseState, st'.output = st.output →
      st'.closedPairs = st.closedPairs → traceInv sn st' := by
    intro st' h1 h2
    unfold traceInv at *
    rw [h1, h2]; exact hInv
  cases ev with
  | startTag name attrs fullTag =>
    unfold stepEvent handleStartElement
    cases hstack : st.stack with
    | cons topId rest =>
      simp only [hstack]
      split
      · exact traceInv_checkAndStream sn _ _ (hApp _ rfl rfl)
      · exact hApp _ rfl rfl
    | nil =>
      simp only [hstack]
      split
      · exact traceInv_checkAndStream sn _ _ (hApp _ rfl rfl)
      · exact hApp _ rfl rfl
  | endTag =>
    unfold stepEvent
    cases hstack : st.stack with
    | nil => simp only [hstack]; exact hInv
    | cons topId rest =>
      simp only [hstack]
      exact traceInv_checkAndStream sn _ _ (hApp _ rfl rfl)
  | textEv bytes =>
    unfold stepEvent
    cases hstack : st.stack with
    | nil => simp only [hstack]; exact hInv
    | cons topId rest =>
      simp only [hstack]
      split
      · obtain ⟨ho, hc, -⟩ := appendContent_trace st topId bytes .textNode
        exact hApp _ ho hc
      · exact hInv
  | cdataEv bytes =>
    unfold stepEvent
    cases hstack : st.stack with
    | nil => simp only [hstack]; exact hInv
    | cons topId rest =>
      simp only [hstack]
      split
      · split
        · obtain ⟨ho, hc, -⟩ :=
            appendContent_trace st topId ((bytes.drop 9).take (bytes.length - 12)) .textNode
          exact hApp _ ho hc
        · exact hInv
      · exact hInv
  | commentEv bytes =>
    unfold stepEvent
    cases hstack : st.stack with
    | nil => simp only [hstack]; exact hInv
    | cons topId rest =>
      simp only [hstack]
      split
      · obtain ⟨ho, hc, -⟩ :=
          appendContent_trace st topId ((bytes.drop 4).take (bytes.length - 7)) .commentNode
        exact hApp _ ho hc
      · exact hInv

theorem traceInv_parse (sn : List Bytes) (events : List XMLEvent) :
    traceInv sn (parseEvents sn events) := by
  suffices h : ∀ st, traceInv sn st → traceInv sn (events.foldl (stepEvent sn) st) from
    h initState (by simp [traceInv, initState])
  induction events with
  | nil => intro st h; exact h
  | cons e es ih => intro st h; exact ih _ (traceInv_step sn st e h)

/-! ## Preservation of the structural invariants -/

theorem getElem?_append_one {α : Type} (l : List α) (x : α) (j : Nat) :
    (l ++ [x])[j]? = if j = l.length then some x else l[j]? := by
  rcases Nat.lt_trichotomy j l.length with hlt | heq | hgt
  · rw [List.getElem?_append_left hlt, if_neg (by omega)]
  · subst heq; simp
  · rw [if_neg (by omega), List.getElem?_eq_none (l := l ++ [x]) (by simp; omega),
      List.getElem?_eq_none (by omega)]

/-- Allocating a fresh node as the last child of a live node, with its
sibling index set to the previous child count, preserves all structural
invariants.  The update function f models the in-place mutation of the
parent (appending the child index, possibly extending the raw buffer). -/
theorem wf_allocChild (st : ParseState) (hWF : WFState st)
    (topId : Nat) (n : Node) (hn : getNode st.heap topId = some n)
    (newNode : Node) (f : Node → Node)
    (hparent : newNode.parent = some topId)
    (hsib : newNode.siblingIndex = n.data.childIds.length)
    (hchild : newNode.data.childIds = [])
    (hfparent : (f n).parent = n.parent)
    (hfsib : (f n).siblingIndex = n.siblingIndex)
    (hfchildren : (f n).data.childIds = n.data.childIds ++ [st.heap.length])
    (hfelem : (f n).data.isElem = n.data.isElem) :
    WFState { st with heap := modifyNode (st.heap ++ [newNode]) topId f } := by
  have htop : topId < st.heap.length := getNode_lt_length hn
  have hgetTop : getNode (modifyNode (st.heap ++ [newNode]) topId f) topId = some (f n) := by
    rw [getNode_modifyNode, if_pos rfl, getNode_append, if_neg (by omega), hn]
    rfl
  have hgetNew : getNode (modifyNode (st.heap ++ [newNode]) topId f) st.heap.length
      = some newNode := by
    rw [getNode_modifyNode, if_neg (by omega), getNode_append, if_pos rfl]
  have hgetOther : ∀ j, j ≠ topId → j ≠ st.heap.length →
      getNode (modifyNode (st.heap ++ [newNode]) topId f) j = getNode st.heap j := by
    intro j h1 h2
    rw [getNode_modifyNode, if_neg h1, getNode_append, if_neg h2]
  have hkids : ∀ cid cn, getNode st.heap cid = some cn →
      ∃ cn', getNode (modifyNode (st.heap ++ [newNode]) topId f) cid = some cn' ∧
        cn'.siblingIndex = cn.siblingIndex ∧ cn'.parent = cn.parent ∧
        cn'.data.isElem = cn.data.isElem := by
    intro cid cn hcn
    by_cases h1 : cid = topId
    · subst h1
      rw [hn] at hcn
      obtain rfl : n = cn := Option.some_inj.mp hcn
      exact ⟨f n, hgetTop, hfsib, hfparent, hfelem⟩
    · have h2 : cid ≠ st.heap.length := by have := getNode_lt_length hcn; omega
      exact ⟨cn, by rw [hgetOther cid h1 h2]; exact hcn, rfl, rfl, rfl⟩
  have hlists : ∀ (pid : Nat) (pn : Node) (sIdx : Nat) (cid : Nat),
      getNode st.heap pid = some pn →
      pn.data.childIds[sIdx]? = some cid →
      ∃ pn', getNode (modifyNode (st.heap ++ [newNode]) topId f) pid = some pn' ∧
        pn'.data.childIds[sIdx]? = some cid := by
    intro pid pn sIdx cid hpn hlist
    by_cases h1 : pid = topId
    · subst h1
      rw [hn] at hpn
      obtain rfl : n = pn := Option.some_inj.mp hpn
      refine ⟨f n, hgetTop, ?_⟩
      have hb : sIdx < n.data.childIds.length := (List.getElem?_eq_some.mp hlist).1
      rw [hfchildren, List.getElem?_append_left hb]
      exact hlist
    · have h2 : pid ≠ st.heap.length := by have := getNode_lt_length hpn; omega
      exact ⟨pn, by rw [hgetOther pid h1 h2]; exact hpn, hlist⟩
  refine ⟨?_, ?_, ?_, ?_⟩ <;> dsimp only
  · intro id hid
    obtain ⟨m, hm, helem⟩ := hWF.stackValid id hid
    obtain ⟨m', hm', -, -, hkind⟩ := hkids id m hm
    exact ⟨m', hm', by rw [hkind]; exact helem⟩
  · intro id hid
    obtain ⟨m, hm, hdet⟩ := hWF.outputDetached id hid
    obtain ⟨m', hm', -, hpar, -⟩ := hkids id m hm
    exact ⟨m', hm', by rw [hpar]; exact hdet⟩
  · intro pid pn' hpn' i cid hcid
    by_cases h1 : pid = topId
    · subst h1
      rw [hgetTop] at hpn'
      obtain rfl : f n = pn' := Option.some_inj.mp hpn'
      rw [hfchildren, getElem?_append_one] at hcid
      by_cases hi : i = n.data.childIds.length
      · rw [if_pos hi] at hcid
        obtain rfl : st.heap.length = cid := Option.some_inj.mp hcid
        exact ⟨newNode, hgetNew, by rw [hsib, hi]⟩
      · rw [if_neg hi] at hcid
        obtain ⟨cn, hcn, hcs⟩ := hWF.childIdx pid n hn i cid hcid
        obtain ⟨cn', hcn', hsi, -, -⟩ := hkids cid cn hcn
        exact ⟨cn', hcn', by rw [hsi]; exact hcs⟩
    · by_cases h2 : pid = st.heap.length
      · subst h2
        rw [hgetNew] at hpn'
        obtain rfl : newNode = pn' := Option.some_inj.mp hpn'
        rw [hchild] at hcid
        exact absurd hcid (by simp)
      · rw [hgetOther pid h1 h2] at hpn'
        obtain ⟨cn, hcn, hcs⟩ := hWF.childIdx pid pn' hpn' i cid hcid
        obtain ⟨cn', hcn', hsi, -, -⟩ := hkids cid cn hcn
        exact ⟨cn', hcn', by rw [hsi]; exact hcs⟩
  · intro id m pid hm hpar
    by_cases h1 : id = topId
    · subst h1
      rw [hgetTop] at hm
      obtain rfl : f n = m := Option.some_inj.mp hm
      rw [hfparent] at hpar
      obtain ⟨pn, hpn, hlist⟩ := hWF.parentListed id n pid hn hpar
      obtain ⟨pn', hpn', hlist'⟩ := hlists pid pn n.siblingIndex id hpn hlist
      exact ⟨pn', hpn', by rw [hfsib]; exact hlist'⟩
    · by_cases h2 : id = st.heap.length
      · subst h2
        rw [hgetNew] at hm
        obtain rfl : newNode = m := Option.some_inj.mp hm
        rw [hparent] at hpar
        obtain rfl : topId = pid := Option.some_inj.mp hpar
        refine ⟨f n, hgetTop, ?_⟩
        rw [hfchildren, hsib, getElem?_append_one, if_pos rfl]
      · rw [hgetOther id h1 h2] at hm
        obtain ⟨pn, hpn, hlist⟩ := hWF.parentListed id m pid hm hpar
        exact hlists pid pn m.siblingIndex id hpn hlist

/-- Allocating a fresh detached childless node preserves the invariants. -/
theorem wf_allocRoot (st : ParseState) (hWF : WFState st) (newNode : Node)
    (hparent : newNode.parent = none) (hchild : newNode.data.childIds = []) :
    WFState { st with heap := st.heap ++ [newNode] } := by
  have hgetNew : getNode (st.heap ++ [newNode]) st.heap.length = some newNode := by
    rw [getNode_append, if_pos rfl]
  have hgetOther : ∀ j, j ≠ st.heap.length →
      getNode (st.heap ++ [newNode]) j = getNode st.heap j := by
    intro j h2; rw [getNode_append, if_neg h2]
  have hold : ∀ cid cn, getNode st.heap cid = some cn →
      getNode (st.heap ++ [newNode]) cid = some cn := by
    intro cid cn hcn
    rw [hgetOther cid (by have := getNode_lt_length hcn; omega)]; exact hcn
  refine ⟨?_, ?_, ?_, ?_⟩ <;> dsimp only
  · intro id hid
    obtain ⟨m, hm, helem⟩ := hWF.stackValid id hid
    exact ⟨m, hold id m hm, helem⟩
  · intro id hid
    obtain ⟨m, hm, hdet⟩ := hWF.outputDetached id hid
    exact ⟨m, hold id m hm, hdet⟩
  · intro pid pn hpn i cid hcid
    by_cases h2 : pid = st.heap.length
    · subst h2
      rw [hgetNew] at hpn
      obtain rfl : newNode = pn := Option.some_inj.mp hpn
      rw [hchild] at hcid
      exact absurd hcid (by simp)
    · rw [hgetOther pid h2] at hpn
      obtain ⟨cn, hcn, hcs⟩ := hWF.childIdx pid pn hpn i cid hcid
      exact ⟨cn, hold cid cn hcn, hcs⟩
  · intro id m pid hm hpar
    by_cases h2 : id = st.heap.length
    · subst h2
      rw [hgetNew] at hm
      obtain rfl : newNode = m := Option.some_inj.mp hm
      rw [hparent] at hpar
      exact Option.noConfusion hpar
    · rw [hgetOther id h2] at hm
      obtain ⟨pn, hpn, hlist⟩ := hWF.parentListed id m pid hm hpar
      exact ⟨pn, hold pid pn hpn, hlist⟩

/-- Close-handling preserves the invariants: detaching the closed element
only resets its parent pointer, and the element it appends to the output
is precisely the one just detached. -/
theorem wf_checkAndStream (sn : List Bytes) (st : ParseState) (id : Nat)
    (hWF : WFState st) (hid : (getNode st.heap id).isSome = true) :
    WFState (checkAndStreamElement sn st id) := by
  cases hnd : getNode st.heap id with
  | none => rw [hnd] at hid; exact absurd hid (by simp)
  | some nd =>
  unfold checkAndStreamElement
  dsimp only
  split
  · -- streamed: parent reset and output extended
    have hgetId : getNode (modifyNode st.heap id (fun n => { n with parent := none })) id
        = some { nd with parent := none } := by
      rw [getNode_modifyNode, if_pos rfl, hnd]; rfl
    have hgetOther : ∀ j, j ≠ id →
        getNode (modifyNode st.heap id (fun n => { n with parent := none })) j
          = getNode st.heap j := by
      intro j hj; rw [getNode_modifyNode, if_neg hj]
    have hsurv : ∀ cid cn, getNode st.heap cid = some cn →
        ∃ cn', getNode (modifyNode st.heap id (fun n => { n with parent := none })) cid
            = some cn' ∧
          cn'.siblingIndex = cn.siblingIndex ∧ cn'.data = cn.data := by
      intro cid cn hcn
      by_cases h1 : cid = id
      · subst h1
        rw [hnd] at hcn
        obtain rfl : nd = cn := Option.some_inj.mp hcn
        exact ⟨{ nd with parent := none }, hgetId, rfl, rfl⟩
      · exact ⟨cn, by rw [hgetOther cid h1]; exact hcn, rfl, rfl⟩
    refine ⟨?_, ?_, ?_, ?_⟩ <;> dsimp only
    · intro sid hsid
      obtain ⟨m, hm, helem⟩ := hWF.stackValid sid hsid
      obtain ⟨m', hm', -, hdata⟩ := hsurv sid m hm
      exact ⟨m', hm', by rw [hdata]; exact helem⟩
    · intro oid hoid
      rcases List.mem_append.mp hoid with hmem | hmem
      · obtain ⟨m, hm, hdet⟩ := hWF.outputDetached oid hmem
        by_cases h1 : oid = id
        · subst h1; exact ⟨{ nd with parent := none }, hgetId, rfl⟩
        · exact ⟨m, by rw [hgetOther oid h1]; exact hm, hdet⟩
      · obtain rfl : oid = id := by simpa using hmem
        exact ⟨{ nd with parent := none }, hgetId, rfl⟩
    · intro pid pn hpn i cid hcid
      by_cases h1 : pid = id
      · subst h1
        rw [hgetId] at hpn
        obtain rfl : { nd with parent := none } = pn := Option.some_inj.mp hpn
        obtain ⟨cn, hcn, hcs⟩ := hWF.childIdx pid nd hnd i cid hcid
        obtain ⟨cn', hcn', hsi, -⟩ := hsurv cid cn hcn
        exact ⟨cn', hcn', by rw [hsi]; exact hcs⟩
      · rw [hgetOther pid h1] at hpn
        obtain ⟨cn, hcn, hcs⟩ := hWF.childIdx pid pn hpn i cid hcid
        obtain ⟨cn', hcn', hsi, -⟩ := hsurv cid cn hcn
        exact ⟨cn', hcn', by rw [hsi]; exact hcs⟩
    · intro nid m pid hm hpar
      by_cases h1 : nid = id
      · subst h1
        rw [hgetId] at hm
        obtain rfl : { nd with parent := none } = m := Option.some_inj.mp hm
        exact Option.noConfusion hpar
      · rw [hgetOther nid h1] at hm
        obtain ⟨pn, hpn, hlist⟩ := hWF.parentListed nid m pid hm hpar
        obtain ⟨pn', hpn', -, hdata⟩ := hsurv pid pn hpn
        exact ⟨pn', hpn', by rw [hdata]; exact hlist⟩
  · -- not streamed: only the close trace changed
    exact ⟨hWF.stackValid, hWF.outputDetached, hWF.childIdx, hWF.parentListed⟩

/-- Replacing the open-element stack with any list of live elements
preserves the invariants (used for pushes and pops). -/
theorem wf_setStack (heap : Heap) (stk stk' : List Nat) (out : List Nat)
    (closed : List (Nat × Bytes))
    (hWF : WFState ⟨heap, stk, out, closed⟩)
    (hvalid : ∀ id ∈ stk', ∃ n, getNode heap id = some n ∧ n.data.isElem = true) :
    WFState ⟨heap, stk', out, closed⟩ :=
  ⟨hvalid, hWF.outputDetached, hWF.childIdx, hWF.parentListed⟩

theorem wf_appendContent (st : ParseState) (topId : Nat) (bytes : Bytes) (ct : ContentType)
    (hWF : WFState st) : WFState (appendContentNode st topId bytes ct) := by
  unfold appendContentNode
  split
  case h_2 => exact hWF
  case h_1 n heq =>
    obtain ⟨np, ns, ndata⟩ := n
    split
    case h_2 => exact hWF
    case h_1 nm ln px uri nss ats children raw hdata =>
      cases hdata
      exact wf_allocChild st hWF topId _ heq _ _ rfl rfl rfl rfl rfl rfl rfl

theorem exists_isElem_getNode_append (h : Heap) (x : Node) (hx : x.data.isElem = true) :
    ∃ n, getNode (h ++ [x]) h.length = some n ∧ n.data.isElem = true :=
  ⟨x, by rw [getNode_append, if_pos rfl], hx⟩

theorem exists_isElem_getNode_allocChild (h : Heap) (x : Node) (topId : Nat) (f : Node → Node)
    (htop : topId < h.length) (hx : x.data.isElem = true) :
    ∃ n, getNode (modifyNode (h ++ [x]) topId f) h.length = some n ∧ n.data.isElem = true :=
  ⟨x, by rw [getNode_modifyNode, if_neg (by omega), getNode_append, if_pos rfl], hx⟩

theorem exists_isElem_getNode_modifyTop (h : Heap) (x : Node) (topId : Nat) (f : Node → Node)
    (n : Node) (hn : getNode h topId = some n) (hfe : (f n).data.isElem = true) :
    ∃ m, getNode (modifyNode (h ++ [x]) topId f) topId = some m ∧ m.data.isElem = true :=
  ⟨f n, by
    rw [getNode_modifyNode, if_pos rfl, getNode_append,
      if_neg (by have := getNode_lt_length hn; omega), hn]
    rfl, hfe⟩

theorem wf_step (sn : List Bytes) (st : ParseState) (ev : XMLEvent) (hWF : WFState st) :
    WFState (stepEvent sn st ev) := by
  obtain ⟨heap, stk, out, closed⟩ := st
  cases ev with
  | startTag name attrs fullTag =>
    unfold stepEvent handleStartElement
    cases stk with
    | nil =>
      dsimp only
      split
      · refine wf_checkAndStream sn _ _ ?_ ?_
        · refine wf_allocRoot _ hWF _ ?_ ?_ <;> rfl
        · dsimp only
          rw [getNode_append, if_pos rfl]
          rfl
      · refine wf_setStack _ [] _ _ _ ?_ ?_
        · refine wf_allocRoot _ hWF _ ?_ ?_ <;> rfl
        · intro id hid
          obtain rfl : id = heap.length := by simpa using hid
          refine exists_isElem_getNode_append _ _ ?_
          rfl
    | cons topId rest =>
      dsimp only
      obtain ⟨n, hn, helem⟩ := hWF.stackValid topId (List.mem_cons_self _ _)
      obtain ⟨np, ns, ndata⟩ := n
      cases ndata with
      | content s e ct => exact absurd helem (by simp [NodeData.isElem])
      | element nm ln px uri nss ats cs rc =>
        have htop : topId < heap.length := getNode_lt_length hn
        split
        · refine wf_checkAndStream sn _ _ ?_ ?_
          · refine wf_allocChild _ hWF topId _ hn _ _ ?_ ?_ ?_ ?_ ?_ ?_ ?_
            · rfl
            · simp only [childrenOfId, hn, NodeData.childIds]
            · rfl
            · rfl
            · rfl
            · rfl
            · rfl
          · dsimp only
            rw [getNode_modifyNode, if_neg (by omega), getNode_append, if_pos rfl]
            rfl
        · refine wf_setStack _ (topId :: rest) _ _ _ ?_ ?_
          · refine wf_allocChild _ hWF topId _ hn _ _ ?_ ?_ ?_ ?_ ?_ ?_ ?_
            · rfl
            · simp only [childrenOfId, hn, NodeData.childIds]
            · rfl
            · rfl
            · rfl
            · rfl
            · rfl
          · intro id hid
            rcases List.mem_cons.mp hid with rfl | hid'
            · refine exists_isElem_getNode_allocChild _ _ _ _ htop ?_
              rfl
            · by_cases hidTop : id = topId
              · subst hidTop
                refine exists_isElem_getNode_modifyTop _ _ _ _ _ hn ?_
                rfl
              · obtain ⟨m, hm, helem2⟩ := hWF.stackValid id hid'
                have h2 : id ≠ heap.length := by
                  have hlt := getNode_lt_length hm
                  dsimp only at hlt
                  omega
                refine ⟨m, ?_, helem2⟩
                rw [getNode_modifyNode, if_neg hidTop, getNode_append, if_neg h2]
                exact hm
  | endTag =>
    unfold stepEvent
    cases stk with
    | nil => exact hWF
    | cons topId rest =>
      dsimp only
      obtain ⟨n, hn, -⟩ := hWF.stackValid topId (List.mem_cons_self _ _)
      refine wf_checkAndStream sn _ _ ?_ ?_
      · refine wf_setStack _ _ _ _ _ hWF ?_
        intro id hid
        exact hWF.stackValid id (List.mem_cons_of_mem _ hid)
      · dsimp only
        rw [hn]
        rfl
  | textEv bytes =>
    unfold stepEvent
    cases stk with
    | nil => exact hWF
    | cons topId rest =>
      dsimp only
      split
      · exact wf_appendContent _ topId bytes .textNode hWF
      · exact hWF
  | cdataEv bytes =>
    unfold stepEvent
    cases stk with
    | nil => exact hWF
    | cons topId rest =>
      dsimp only
      split
      · split
        · exact wf_appendContent _ topId _ .textNode hWF
        · exact hWF
      · exact hWF
  | commentEv bytes =>
    unfold stepEvent
    cases stk with
    | nil => exact hWF
    | cons topId rest =>
      dsimp only
      split
      · exact wf_appendContent _ topId _ .commentNode hWF
      · exact hWF

theorem wf_initState : WFState initState := by
  refine ⟨?_, ?_, ?_, ?_⟩
  · intro id hid; exact absurd hid (by simp [initState])
  · intro id hid; exact absurd hid (by simp [initState])
  · intro pid pn hpn; exact absurd hpn (by simp [initState, getNode])
  · intro id m pid hm; exact absurd hm (by simp [initState, getNode])

theorem wf_parse (sn : List Bytes) (events : List XMLEvent) :
    WFState (parseEvents sn events) := by
  suffices h : ∀ st, WFState st → WFState (events.foldl (stepEvent sn) st) from
    h initState wf_initState
  induction events with
  | nil => intro st h; exact h
  | cons e es ih => intro st h; exact ih _ (wf_step sn st e h)

/-! ## Claim C1 -/

/-- C1: the claim states inner text is exactly the concatenation of the
descendant text (not comment) runs, with the example that the item
element containing a comment with content c followed by the text run
text has inner text text.  The code diverges at exactly this input:
comment content is appended to the same raw content buffer as text, and
the fast path of InnerText (taken because no child is an element)
returns that entire buffer, giving ctext.  The recursive slow path
collectText, which the same method uses as soon as an element child is
present, skips comment nodes and yields text, matching the claim; the
two paths of the one method disagree on the same content, so the code,
not the claim, is at fault. -/
theorem C1_innerText_fast_path_includes_comment :
    (parseEvents [chars "item"] c1Events).output = [0] ∧
    elementInnerText (parseEvents [chars "item"] c1Events).heap 0 = chars "ctext" ∧
    collectText (parseEvents [chars "item"] c1Events).heap
      (parseEvents [chars "item"] c1Events).heap.length 0 = chars "text" ∧
    chars "ctext" ≠ chars "text" :=
  ⟨rfl, rfl, rfl, by decide⟩

/-! ## Claim C2 -/

/-- C2: a closed element is sent on the output channel if and only if
its qualified name is in the stream-target set, and close-handling is
the only emission path: for every document and target set the output is
exactly the trace of closed elements restricted to target names, in
closing order.  An empty target set emits nothing regardless of document
content, and for targets item over the document root, item 1, other x,
item 2, exactly two elements are emitted, with inner texts 1 then 2 in
document order. -/
theorem C2_stream_target_selection :
    (∀ (sn : List Bytes) (events : List XMLEvent),
        (parseEvents sn events).output
          = ((parseEvents sn events).closedPairs.filter
              (fun p => sn.length > 0 && sn.contains p.2)).map Prod.fst) ∧
    (∀ events : List XMLEvent, (parseEvents [] events).output = []) ∧
    (parseEvents [chars "item"] c2Events).output.length = 2 ∧
    (parseEvents [chars "item"] c2Events).output.map
        (fun id => elementInnerText (parseEvents [chars "item"] c2Events).heap id)
      = [chars "1", chars "2"] := by
  refine ⟨fun sn events => traceInv_parse sn events, fun events => ?_, rfl, rfl⟩
  have h := traceInv_parse [] events
  unfold traceInv at h
  simpa using h

/-! ## Claims C3 and C4 -/

/-- C3: every element handed to the consumer on the output channel is a
detached subtree root: its parent back-reference is nil.  Detachment
happens at the moment of sending and is never undone, so it holds in the
final state of every run, in particular for every prefix of a run (every
observable moment). -/
theorem C3_emitted_elements_detached (sn : List Bytes) (events : List XMLEvent)
    (id : Nat) (hid : id ∈ (parseEvents sn events).output) :
    ∃ n, getNode (parseEvents sn events).heap id = some n ∧ n.parent = none :=
  (wf_parse sn events).outputDetached id hid

theorem C3_witness :
    1 ∈ (parseEvents [chars "item"] c2Events).output ∧
    ∃ n, getNode (parseEvents [chars "item"] c2Events).heap 1 = some n ∧ n.parent = none :=
  ⟨by decide, C3_emitted_elements_detached [chars "item"] c2Events 1 (by decide)⟩

/-- C4: the sibling-index invariant, at every point a reader can observe
the tree (the state after any event sequence, hence after any prefix of
a run): every entry of any child list is a live node whose sibling index
is its position in that list, and, equivalently, every node with a
non-nil parent pointer is listed among that parent's children at its
sibling index. -/
theorem C4_sibling_index_invariant (sn : List Bytes) (events : List XMLEvent) :
    (∀ pid pn, getNode (parseEvents sn events).heap pid = some pn →
      ∀ i cid, pn.data.childIds[i]? = some cid →
        ∃ cn, getNode (parseEvents sn events).heap cid = some cn ∧ cn.siblingIndex = i) ∧
    (∀ id n pid, getNode (parseEvents sn events).heap id = some n → n.parent = some pid →
      ∃ pn, getNode (parseEvents sn events).heap pid = some pn ∧
        pn.data.childIds[n.siblingIndex]? = some id) :=
  ⟨(wf_parse sn events).childIdx, (wf_parse sn events).parentListed⟩

theorem C4_witness :
    (∃ cn, getNode (parseEvents [chars "item"] c2Events).heap 3 = some cn ∧
       cn.siblingIndex = 1) ∧
    (∃ pn, getNode (parseEvents [chars "item"] c2Events).heap 0 = some pn ∧
       pn.data.childIds[(1 : Nat)]? = some 3) :=
  ⟨(C4_sibling_index_invariant [chars "item"] c2Events).1 0 _ rfl 1 3 rfl,
   (C4_sibling_index_invariant [chars "item"] c2Events).2 3 _ 0 rfl rfl⟩

/-! ## Claim C5: the xmlns short-circuit -/

theorem hasPrefixB_iff : ∀ (l p : Bytes), hasPrefixB l p = true ↔ p <+: l := by
  intro l p
  induction p generalizing l with
  | nil => simp [hasPrefixB]
  | cons b bs ih =>
    cases l with
    | nil => simp [hasPrefixB]
    | cons a t =>
      rw [hasPrefixB, Bool.and_eq_true, decide_eq_true_eq, ih, List.cons_prefix_cons]
      exact ⟨fun h => ⟨h.1.symm, h.2⟩, fun h => ⟨h.1.symm, h.2⟩⟩

theorem containsBytes_nil_eq (needle : Bytes) :
    containsBytes [] needle = if hasPrefixB [] needle = true then true else false := rfl

theorem containsBytes_cons_eq (a : Char) (t needle : Bytes) :
    containsBytes (a :: t) needle
      = if hasPrefixB (a :: t) needle = true then true else containsBytes t needle := rfl

theorem containsBytes_of_isInfix :
    ∀ (hay needle : Bytes), needle <:+: hay → containsBytes hay needle = true := by
  intro hay
  induction hay with
  | nil =>
    intro needle h
    obtain rfl : needle = [] := by simpa using h
    rfl
  | cons a t ih =>
    intro needle h
    rw [containsBytes_cons_eq]
    rcases List.infix_cons_iff.mp h with hpre | hinf
    · rw [if_pos ((hasPrefixB_iff _ _).mpr hpre)]
    · split
      · rfl
      · exact ih needle hinf

theorem take_isPre (l : Bytes) (b : Nat) : l.take b <+: l :=
  ⟨l.drop b, List.take_append_drop b l⟩

theorem drop_isSuf (l : Bytes) (a : Nat) : l.drop a <:+ l :=
  ⟨l.take a, List.take_append_drop a l⟩

theorem slice_isInfix (l : Bytes) (a b : Nat) : slice l a b <:+: l :=
  (drop_isSuf (l.take b) a).isInfix.trans (take_isPre l b).isInfix

theorem dropWhile_isSuf (p : Char → Bool) (l : Bytes) : l.dropWhile p <:+ l := by
  induction l with
  | nil => exact List.suffix_rfl
  | cons a t ih =>
    rw [List.dropWhile_cons]
    split
    · exact ih.trans (List.suffix_cons a t)
    · exact List.suffix_rfl

theorem rev_drop_isPre (p : Char → Bool) (r : Bytes) :
    (r.reverse.dropWhile p).reverse <+: r := by
  obtain ⟨w, hw⟩ := dropWhile_isSuf p r.reverse
  refine ⟨w.reverse, ?_⟩
  rw [← List.reverse_append, hw, List.reverse_reverse]

theorem trimSpace_isInfix (l : Bytes) : trimSpace l <:+: l :=
  (rev_drop_isPre isGoSpace (l.dropWhile isGoSpace)).isInfix.trans
    (dropWhile_isSuf isGoSpace l).isInfix

/-- When the raw attribute bytes do not contain xmlns, no scanned and
trimmed attribute name can be xmlns or start with the seven characters
of a prefixed declaration. -/
theorem no_xmlns_name (attrs : Bytes) (a b : Nat)
    (hni : containsBytes attrs (chars "xmlns") = false) :
    ¬(trimSpace (slice attrs a b) = chars "xmlns"
      ∨ hasPrefixB (trimSpace (slice attrs a b)) (chars "xmlns:") = true) := by
  intro hcase
  have hinf : trimSpace (slice attrs a b) <:+: attrs :=
    (trimSpace_isInfix _).trans (slice_isInfix attrs a b)
  have hpre : chars "xmlns" <+: trimSpace (slice attrs a b) := by
    rcases hcase with heq | hpfx
    · rw [heq]
    · exact List.IsPrefix.trans (by decide) ((hasPrefixB_iff _ _).mp hpfx)
  have hx : chars "xmlns" <:+: attrs := hpre.isInfix.trans hinf
  rw [containsBytes_of_isInfix attrs _ hx] at hni
  exact Bool.noConfusion hni

/-- Absent the xmlns substring, the namespace scan finds nothing. -/
theorem extractNamespacesLoop_none (attrs : Bytes)
    (hni : containsBytes attrs (chars "xmlns") = false) :
    ∀ (fuel i : Nat), extractNamespacesLoop attrs i fuel none = none := by
  intro fuel
  induction fuel with
  | zero => intro i; rfl
  | succ fuel ih =>
    intro i
    simp only [extractNamespacesLoop]
    split
    · split
      · split
        · -- bailout branch: the accumulator is passed through unchanged
          split
          · split
            · exact ih _
            · exact ih _
          · exact ih _
        · -- potential-declaration branch
          split
          · split
            · have hno := no_xmlns_name attrs
                (skipWhile isSpaceNLChar attrs i)
                (skipWhile (fun c => !(c = '=')) attrs (skipWhile isSpaceNLChar attrs i)) hni
              rw [if_neg (fun h => hno (Or.inl h)), if_neg (fun h => hno (Or.inr h))]
              exact ih _
            · rfl
          · rfl
      · rfl
    · rfl

/-- C5: the conditional namespace extraction (scan only when the raw
attribute bytes contain the substring xmlns) computes the same namespace
mapping as unconditional extraction, for every attribute byte string:
absence of the substring guarantees the scan would find no declarations. -/
theorem C5_conditional_namespace_extraction (attrs : Bytes) :
    (if attrs.length > 0 && containsBytes attrs (chars "xmlns") then
        extractNamespaces attrs
      else none) = extractNamespaces attrs := by
  cases hc : (attrs.length > 0 && containsBytes attrs (chars "xmlns")) with
  | true => simp [hc]
  | false =>
    rw [if_neg Bool.false_ne_true]
    by_cases hlen : attrs.length = 0
    · unfold extractNamespaces
      rw [if_pos hlen]
    · have hcb : containsBytes attrs (chars "xmlns") = false := by
        cases hcb : containsBytes attrs (chars "xmlns") with
        | false => rfl
        | true =>
          rw [hcb] at hc
          simp [Nat.pos_of_ne_zero hlen] at hc
      unfold extractNamespaces
      rw [if_neg hlen]
      exact (extractNamespacesLoop_none attrs hcb _ 0).symm

/-! ## Claim C6: idempotence of channel acquisition -/

theorem stream_stable (w : StreamWorld) (c : Nat) (hdone : w.parser.onceDone = true)
    (hch : w.parser.ch = some c) : Stream w = (w, c) := by
  unfold Stream
  rw [if_pos hdone, hch]
  rfl

theorem streamCalls_stable (w : StreamWorld) (c : Nat) (hdone : w.parser.onceDone = true)
    (hch : w.parser.ch = some c) : ∀ n, streamCalls w n = (w, List.replicate n c) := by
  intro n
  induction n with
  | zero => rfl
  | succ n ih =>
    simp only [streamCalls, stream_stable w c hdone hch, ih]
    rfl

/-- C6: requesting the output stream is idempotent.  Before the first
request no parse task has started; the first request starts exactly one
and returns the created channel; every sequence of n requests returns n
copies of that same channel handle, and still exactly one parse task has
been started. -/
theorem C6_stream_idempotent (sn : List Bytes) (buf : Int) :
    (mkStreamWorld sn buf).startedParses = [] ∧
    ∀ n : Nat,
      (streamCalls (mkStreamWorld sn buf) n).2
          = List.replicate n (Stream (mkStreamWorld sn buf)).2 ∧
      (streamCalls (mkStreamWorld sn buf) n).1.startedParses
          = if n = 0 then [] else [(Stream (mkStreamWorld sn buf)).2] := by
  refine ⟨rfl, ?_⟩
  intro n
  cases n with
  | zero => exact ⟨rfl, rfl⟩
  | succ n =>
    have hstable := streamCalls_stable (Stream (mkStreamWorld sn buf)).1
      (Stream (mkStreamWorld sn buf)).2 rfl rfl n
    constructor
    · show (streamCalls (mkStreamWorld sn buf) (n + 1)).2 = _
      simp only [streamCalls, hstable]
      rfl
    · show (streamCalls (mkStreamWorld sn buf) (n + 1)).1.startedParses = _
      simp only [streamCalls, hstable]
      rw [if_neg (Nat.succ_ne_zero n)]
      rfl

/-! ## Claim C7: failed moves leave the cursor unchanged -/

/-- C7: for every heap, cursor state and movement operation of the
navigation contract (to parent, first or next or previous sibling, first
child, next attribute), a move that reports failure leaves the cursor
exactly as it was. -/
theorem C7_failed_move_leaves_cursor_unchanged (ht : Heap) (m : Move)
    (nav : elementNavigator) (hfail : (applyMove ht m nav).1 = false) :
    (applyMove ht m nav).2 = nav := by
  cases m <;>
    simp only [applyMove, MoveToParent, MoveToNextAttribute, MoveToChild, MoveToFirst,
      MoveToNext, MoveToPrevious] at hfail ⊢ <;>
    (repeat' split at hfail) <;> simp_all

theorem C7_witness :
    (applyMove ([] : Heap) .toParent ⟨0, 0, none, -1⟩).1 = false ∧
    (applyMove ([] : Heap) .toParent ⟨0, 0, none, -1⟩).2 = ⟨0, 0, none, -1⟩ :=
  ⟨by decide, C7_failed_move_leaves_cursor_unchanged [] .toParent ⟨0, 0, none, -1⟩ (by decide)⟩

/-! ## Claim C9: the MoveToFirst success condition -/

/-- C9: MoveToFirst succeeds exactly when the cursor is not on an
attribute, the current node has a non-nil parent, and the current node's
sibling index is nonzero; when the cursor is already on its parent's
first child the move fails and the cursor is unchanged.  The parent's
child list being non-empty whenever the node has a parent is the
sibling-index invariant established for all assembled trees in C4. -/
theorem C9_moveToFirst_success_condition (ht : Heap) (nav : elementNavigator) (n : Node)
    (hcur : getNode ht nav.currNode = some n)
    (hinv : n.parent.elim True (fun pid => childrenOfId ht pid ≠ [])) :
    ((applyMove ht .toFirst nav).1 = true ↔
      nav.attributeIndex = -1 ∧ n.parent ≠ none ∧ n.siblingIndex ≠ 0) ∧
    (n.siblingIndex = 0 → applyMove ht .toFirst nav = (false, nav)) := by
  have hpar : parentOfNode ht nav.currNode = n.parent := by
    simp [parentOfNode, hcur]
  have hsib : siblingIndexOf ht nav.currNode = n.siblingIndex := by
    simp [siblingIndexOf, hcur]
  constructor
  · constructor
    · intro hsuc
      simp only [applyMove, MoveToFirst, hpar, hsib] at hsuc
      by_cases hattr : nav.attributeIndex ≠ -1
      · rw [if_pos hattr] at hsuc
        exact absurd hsuc (by simp)
      · rw [if_neg hattr] at hsuc
        push_neg at hattr
        cases hp : n.parent with
        | none =>
          simp only [hp] at hsuc
          exact absurd hsuc (by simp)
        | some pid =>
          simp only [hp] at hsuc
          by_cases hs0 : n.siblingIndex = 0
          · rw [if_pos hs0] at hsuc
            exact absurd hsuc (by simp)
          · exact ⟨hattr, fun h => Option.noConfusion h, hs0⟩
    · rintro ⟨hattr, hpne, hs0⟩
      simp only [applyMove, MoveToFirst, hpar, hsib]
      rw [if_neg (by simp [hattr])]
      cases hp : n.parent with
      | none => exact absurd hp hpne
      | some pid =>
        rw [hp] at hinv
        simp only [Option.elim] at hinv
        simp only [hp]
        rw [if_neg hs0]
        cases hch : childrenOfId ht pid with
        | nil => exact absurd hch hinv
        | cons c cs => simp [hch]
  · intro hs0
    simp only [applyMove, MoveToFirst, hpar, hsib]
    by_cases hattr : nav.attributeIndex ≠ -1
    · rw [if_pos hattr]
    · rw [if_neg hattr]
      cases hp : n.parent with
      | none => simp only [hp]
      | some pid =>
        simp only [hp]
        rw [if_pos hs0]

theorem C9_witness :
    (((applyMove c9heap .toFirst c9nav).1 = true ↔
        c9nav.attributeIndex = -1 ∧ c9node.parent ≠ none ∧ c9node.siblingIndex ≠ 0) ∧
      (c9node.siblingIndex = 0 → applyMove c9heap .toFirst c9nav = (false, c9nav))) :=
  C9_moveToFirst_success_condition c9heap c9nav c9node (by decide)
    (by simp only [c9node, Option.elim]; decide)

/-! ## Claim C8: totality of the scanners, end tags on an empty stack -/

theorem skipWhileAux_ge (p : Char → Bool) (attrs : Bytes) :
    ∀ (fuel i : Nat), i ≤ skipWhileAux p attrs i fuel := by
  intro fuel
  induction fuel with
  | zero => intro i; exact Nat.le_refl i
  | succ fuel ih =>
    intro i
    simp only [skipWhileAux]
    split
    · split
      · exact Nat.le_trans (Nat.le_succ i) (ih (i + 1))
      · exact Nat.le_refl i
    · exact Nat.le_refl i

theorem skipWhile_ge (p : Char → Bool) (attrs : Bytes) (i : Nat) :
    i ≤ skipWhile p attrs i :=
  skipWhileAux_ge p attrs _ i

theorem skipWhileAux_le_length (p : Char → Bool) (attrs : Bytes) :
    ∀ (fuel i : Nat), i ≤ attrs.length → skipWhileAux p attrs i fuel ≤ attrs.length := by
  intro fuel
  induction fuel with
  | zero => intro i h; exact h
  | succ fuel ih =>
    intro i h
    simp only [skipWhileAux]
    split
    case isTrue hlt =>
      split
      · exact ih (i + 1) hlt
      · exact h
    case isFalse hge => exact h

theorem skipWhile_le_length (p : Char → Bool) (attrs : Bytes) (i : Nat)
    (h : i ≤ attrs.length) : skipWhile p attrs i ≤ attrs.length :=
  skipWhileAux_le_length p attrs _ i h

theorem getE_ok (l : Bytes) (i : Nat) (h : i < l.length) :
    getE l i = .ok (l.get ⟨i, h⟩) := by
  unfold getE
  rw [List.getElem?_eq_getElem h]
  rfl

theorem sliceE_ok (l : Bytes) (a b : Nat) (hab : a ≤ b) (hb : b ≤ l.length) :
    sliceE l a b = .ok (slice l a b) := by
  unfold sliceE
  rw [if_pos ⟨hab, hb⟩]

/-- The checked replay of attribute scanning never fails and agrees with
the plain scan: every index and slice access of the loop is in bounds. -/
theorem parseAttributesLoopE_ok (attrs : Bytes) :
    ∀ (fuel i : Nat) (acc : List XMLAttribute),
      parseAttributesLoopE attrs i fuel acc = .ok (parseAttributesLoop attrs i fuel acc) := by
  intro fuel
  induction fuel with
  | zero => intro i acc; rfl
  | succ fuel ih =>
    intro i acc
    simp only [parseAttributesLoopE, parseAttributesLoop]
    by_cases h1 : skipWhile isSpaceNLChar attrs i < attrs.length
    case neg => rw [if_neg h1, dif_neg h1]
    case pos =>
    rw [if_pos h1, dif_pos h1]
    by_cases h2 : skipWhile (fun c => !(c = '=')) attrs (skipWhile isSpaceNLChar attrs i)
        < attrs.length
    case neg => rw [if_neg h2, dif_neg h2]
    case pos =>
    rw [if_pos h2, dif_pos h2, sliceE_ok attrs _ _ (skipWhile_ge _ attrs _) (Nat.le_of_lt h2)]
    dsimp only
    by_cases h3 : skipWhile isSpaceTabChar attrs
        (skipWhile (fun c => !(c = '=')) attrs (skipWhile isSpaceNLChar attrs i) + 1)
        < attrs.length
    case neg => rw [if_neg h3, dif_neg h3]
    case pos =>
    rw [if_pos h3, dif_pos h3, getE_ok attrs _ h3]
    dsimp only
    split
    case isTrue hq =>
      rw [sliceE_ok attrs _ _ (skipWhile_ge _ attrs _)
        (skipWhile_le_length _ attrs _ (by omega))]
      dsimp only
      exact ih _ _
    case isFalse hq => rfl

theorem parseAttributesE_ok (attrs : Bytes) :
    parseAttributesE attrs = .ok (parseAttributes attrs) := by
  unfold parseAttributesE parseAttributes
  split
  · rfl
  · exact parseAttributesLoopE_ok attrs _ 0 []

/-- The checked replay of namespace extraction never fails and agrees
with the plain scan. -/
theorem extractNamespacesLoopE_ok (attrs : Bytes) :
    ∀ (fuel i : Nat) (acc : Option NSMap),
      extractNamespacesLoopE attrs i fuel acc = .ok (extractNamespacesLoop attrs i fuel acc) := by
  intro fuel
  induction fuel with
  | zero => intro i acc; rfl
  | succ fuel ih =>
    intro i acc
    simp only [extractNamespacesLoopE, extractNamespacesLoop]
    by_cases h1 : skipWhile isSpaceNLChar attrs i < attrs.length
    case neg => rw [if_neg h1, dif_neg h1]
    case pos =>
    rw [if_pos h1, dif_pos h1]
    by_cases h2 : skipWhile (fun c => !(c = '=')) attrs (skipWhile isSpaceNLChar attrs i)
        < attrs.length
    case neg => rw [if_neg h2, dif_neg h2]
    case pos =>
    rw [if_pos h2, dif_pos h2, sliceE_ok attrs _ _ (skipWhile_ge _ attrs _) (Nat.le_of_lt h2)]
    dsimp only
    split
    case isTrue hbail =>
      by_cases h3 : skipWhile isSpaceTabChar attrs
          (skipWhile (fun c => !(c = '=')) attrs (skipWhile isSpaceNLChar attrs i) + 1)
          < attrs.length
      case neg =>
        rw [if_neg h3, dif_neg h3]
        exact ih _ _
      case pos =>
      rw [if_pos h3, dif_pos h3, getE_ok attrs _ h3]
      dsimp only
      split
      case isTrue hq => exact ih _ _
      case isFalse hq => exact ih _ _
    case isFalse hbail =>
      by_cases h3 : skipWhile isSpaceTabChar attrs
          (skipWhile (fun c => !(c = '=')) attrs (skipWhile isSpaceNLChar attrs i) + 1)
          < attrs.length
      case neg => rw [if_neg h3, dif_neg h3]
      case pos =>
      rw [if_pos h3, dif_pos h3, getE_ok attrs _ h3]
      dsimp only
      split
      case isTrue hq =>
        rw [sliceE_ok attrs _ _ (skipWhile_ge _ attrs _)
          (skipWhile_le_length _ attrs _ (by omega))]
        dsimp only
        exact ih _ _
      case isFalse hq => rfl

theorem extractNamespacesE_ok (attrs : Bytes) :
    extractNamespacesE attrs = .ok (extractNamespaces attrs) := by
  unfold extractNamespacesE extractNamespaces
  split
  · rfl
  · exact extractNamespacesLoopE_ok attrs _ 0 none

/-- C8: the assembler never fails on malformed input at these
boundaries.  An end-tag event with an empty open-element stack is
ignored with no state change, and attribute and namespace scanning are
total over arbitrary byte input: the bounds-checked replays of both
scanners always return ok, with the plain scan's result, so no access is
ever out of range; malformed input merely yields fewer recognized
attributes or namespaces. -/
theorem C8_malformed_input_tolerance :
    (∀ (sn : List Bytes) (st : ParseState), st.stack = [] → stepEvent sn st .endTag = st) ∧
    (∀ attrs : Bytes, parseAttributesE attrs = .ok (parseAttributes attrs)) ∧
    (∀ attrs : Bytes, extractNamespacesE attrs = .ok (extractNamespaces attrs)) := by
  refine ⟨?_, parseAttributesE_ok, extractNamespacesE_ok⟩
  intro sn st h
  obtain ⟨heap, stk, out, closed⟩ := st
  dsimp only at h
  subst h
  rfl

theorem C8_witness :
    stepEvent [] initState .endTag = initState ∧
    parseAttributesE (chars "a='1' junk=") = .ok (parseAttributes (chars "a='1' junk=")) :=
  ⟨C8_malformed_input_tolerance.1 [] initState rfl,
   C8_malformed_input_tolerance.2.1 (chars "a='1' junk=")⟩

end XmlStreamer
